import Mathlib

/-!
Verification development for the ingestion pipeline of this repository.

The Python sources are shallowly embedded: pure fragments become Lean
functions over `List Char` (Python `str`), `ℤ` (timestamps, seconds and
counters — the source's float timestamps are modelled with exact integer
arithmetic; no claim here depends on fractional values) and association
lists (database tables, the file system). Effectful steps (yt-dlp
invocations, ffmpeg, whisper, the DB driver) are parameterised by
explicit environment values describing the outcome of each external
call, exactly mirroring the branching of the source on those outcomes.
-/

set_option linter.unusedVariables false

/-! ## Python string primitives

`str.strip` / `str.split()` as used by `embedder.process_channel`. Python
strips ASCII whitespace; the transcript texts handled here are ASCII, so
whitespace is modelled as space, tab, newline, carriage return. -/

def isSp (c : Char) : Bool := c == ' ' || c == '\t' || c == '\n' || c == '\r'

/-- Left part of Python `str.strip`: drop leading whitespace. -/
def stripL (s : List Char) : List Char := s.dropWhile isSp

/-- Right part of Python `str.strip`: drop trailing whitespace. -/
def stripR (s : List Char) : List Char := (s.reverse.dropWhile isSp).reverse

/-- Python `str.strip()`. -/
def strip (s : List Char) : List Char := stripR (stripL s)

/-- Helper for `words`: `acc` is the reversed current word. -/
def wordsAux : List Char → List Char → List (List Char)
  | [], acc => if acc.isEmpty then [] else [acc.reverse]
  | c :: rest, acc =>
    if isSp c then
      (if acc.isEmpty then wordsAux rest [] else acc.reverse :: wordsAux rest [])
    else wordsAux rest (c :: acc)

/-- Python `str.split()` with no argument: maximal runs of non-whitespace. -/
def words (s : List Char) : List (List Char) := wordsAux s []

/-- Joining a list of words with single spaces (the reference shape for
chunk texts). -/
def joinSp : List (List Char) → List Char
  | [] => []
  | [w] => w
  | w :: ws => w ++ ' ' :: joinSp ws

/-- The chunker's running buffer after folding in the words `g`:
each one followed by a single space, as `current_chunk` accumulates
`seg["text"].strip() + " "`. -/
def flat (g : List (List Char)) : List Char := (g.map (fun w => w ++ [' '])).flatten

/-- The first character, if any, is not whitespace. -/
def edgeOkL (w : List Char) : Bool :=
  match w with
  | [] => true
  | c :: _ => !isSp c

/-- A nonempty word with no leading and no trailing whitespace — the shape
of every nonempty `str.strip()` result. -/
def goodWord (w : List Char) : Prop :=
  w ≠ [] ∧ edgeOkL w = true ∧ edgeOkL w.reverse = true

/-- Python `pat in line` (substring test). -/
def beginsWith : List Char → List Char → Bool
  | _, [] => true
  | [], _ :: _ => false
  | c :: cs, d :: ds => c == d && beginsWith cs ds

def containsSub (l pat : List Char) : Bool :=
  match l with
  | [] => pat.isEmpty
  | _ :: rest => beginsWith l pat || containsSub rest pat

/-! ## Chunker (`embedder.process_channel`, lines 140-163)

`CHUNK_SIZE = 100  # Number of words per chunk`. The loop keeps
`current_chunk` (buffer) and `start_time` (initialised `None`, tested with
`if not start_time:` — Python falsiness, so a stored `0.0` counts as
unset). A window closes when `len(current_chunk.split()) >= CHUNK_SIZE`
or the segment is the last one; the closing segment's enumeration index
`i` is the one used in the derived Chroma/relational id. -/

def CHUNK_SIZE : ℕ := 100

structure Segment where
  start : ℤ
  stop : ℤ
  text : List Char
deriving DecidableEq

structure Chunk where
  text : List Char
  start : ℤ
  stop : ℤ
  closeIdx : ℕ
deriving DecidableEq

/-- `if not start_time:` — `None` and `0.0` are both falsy. -/
def pyFalsyTime : Option ℤ → Bool
  | none => true
  | some x => x == 0

def chunkStep : List Segment → ℕ → List Char → Option ℤ → List Chunk
  | [], _, _, _ => []
  | seg :: rest, i, buf, st =>
    let st' := if pyFalsyTime st then some seg.start else st
    let buf' := buf ++ strip seg.text ++ [' ']
    if CHUNK_SIZE ≤ (words buf').length ∨ rest = [] then
      ⟨strip buf', st'.getD 0, seg.stop, i⟩ :: chunkStep rest (i + 1) [] none
    else
      chunkStep rest (i + 1) buf' st'

/-- The whole per-video chunking loop of `process_channel`. -/
def chunkSegments (segs : List Segment) : List Chunk := chunkStep segs 0 [] none

/-! ## Derived chunk ids and the two stores' views of them -/

/-- `f"{channel_id}-{video_id}-{i}"`. -/
def mkChunkId (ch vid : String) (i : ℕ) : String :=
  ch ++ "-" ++ vid ++ "-" ++ toString i

/-- The `ids` list built inside the chunking loop: the ordinal recorded in
the id is the enumeration index of the segment that closed the window. -/
def chunkIds (ch vid : String) (segs : List Segment) : List String :=
  (chunkSegments segs).map (fun c => mkChunkId ch vid c.closeIdx)

/-- One row of `transcript_chunks`
(`id, video_id, channel_id, chunk_index, start_time, end_time, text`). -/
structure ChunkRow where
  id : String
  video_id : String
  channel_id : String
  chunk_index : ℕ
  start_time : ℤ
  end_time : ℤ
  text : List Char
deriving DecidableEq

/-- The `for idx, (txt, meta_data) in enumerate(zip(...))` loop building
`pg_chunks`: row `idx` gets `ids[idx]` as id and `idx` as `chunk_index`. -/
def pgRowsAux (vid ch : String) : ℕ → List (String × Chunk) → List ChunkRow
  | _, [] => []
  | idx, (idStr, c) :: rest =>
    ⟨idStr, vid, ch, idx, c.start, c.stop, c.text⟩ :: pgRowsAux vid ch (idx + 1) rest

def pgChunkRows (ch vid : String) (segs : List Segment) : List ChunkRow :=
  pgRowsAux vid ch 0 ((chunkIds ch vid segs).zip (chunkSegments segs))

/-- The Chroma `collection.add` batching loop:
`for i in range(0, len(texts), batch_size)` with `batch_size = 100`. -/
def chunksOf100 : List α → List (List α)
  | [] => []
  | x :: xs => ((x :: xs).take 100) :: chunksOf100 ((x :: xs).drop 100)
termination_by l => l.length
decreasing_by simp [List.length_drop]; omega

/-- The successive id batches handed to the vector store for one video. -/
def chromaIdBatches (ch vid : String) (segs : List Segment) : List (List String) :=
  chunksOf100 (chunkIds ch vid segs)

/-- The ordinal-based ids the specification describes ("window index
increments per closed window, used as the ordinal in the derived Chunk
ID"); written from the spec's words for comparison against `chunkIds`. -/
def specOrdinalIdsAux (ch vid : String) : ℕ → List Chunk → List String
  | _, [] => []
  | k, _ :: rest => mkChunkId ch vid k :: specOrdinalIdsAux ch vid (k + 1) rest

def specOrdinalIds (ch vid : String) (segs : List Segment) : List String :=
  specOrdinalIdsAux ch vid 0 (chunkSegments segs)

/-! ## Concrete inputs for the chunker claims -/

/-- Two segments, the first starting at time 0.0 — the ubiquitous shape of
a transcript's opening. -/
def segsC1 : List Segment := [⟨0, 2, "a b c".data⟩, ⟨2, 4, "d e".data⟩]

/-- A 50-word text. -/
def w50 : List Char := (List.replicate 50 ('w' :: [' '])).flatten

/-- Two 50-word segments (first window closes at segment index 1) followed
by a short tail segment (second window closes at segment index 2). -/
def segsC2 : List Segment := [⟨0, 1, w50⟩, ⟨1, 2, w50⟩, ⟨2, 3, "x".data⟩]

/-- A segment whose text strips to empty, followed by a one-word segment. -/
def segsC9 : List Segment := [⟨0, 1, "".data⟩, ⟨1, 2, "a".data⟩]

/-! ## Relational store (`db_client.py`)

Tables are association lists of rows; `ON CONFLICT (id) DO UPDATE` becomes:
if a row with the id exists, map the update over the table, otherwise
append the freshly built row. `datetime.utcnow()` is an explicit `now`
argument. -/

/-- The values `insert_video_metadata` extracts from its `meta` dict
(`meta.get(...)` with the source's defaults already applied). -/
structure VideoMeta where
  id : String
  channel_id : Option String
  title : String
  description : String
  upload_date : Option String
  duration : ℤ
  view_count : ℤ
  like_count : ℤ
  categories : List String
  language : String
  webpage_url : String
deriving DecidableEq

/-- One row of the `videos` table. -/
structure VideoRow where
  id : String
  channel_id : Option String
  title : String
  description : String
  upload_date : Option String
  duration : ℤ
  view_count : ℤ
  like_count : ℤ
  categories : List String
  language : String
  url : String
  extracted_at : ℤ
deriving DecidableEq

/-- The row the INSERT clause would create. -/
def rowOfMeta (m : VideoMeta) (now : ℤ) : VideoRow :=
  ⟨m.id, m.channel_id, m.title, m.description, m.upload_date, m.duration,
    m.view_count, m.like_count, m.categories, m.language, m.webpage_url, now⟩

/-- The `DO UPDATE SET title, description, view_count, like_count,
extracted_at = EXCLUDED...` clause applied to one stored row. -/
def videoUpd (m : VideoMeta) (now : ℤ) (r : VideoRow) : VideoRow :=
  if r.id == m.id then
    { r with title := m.title, description := m.description,
             view_count := m.view_count, like_count := m.like_count,
             extracted_at := now }
  else r

/-- `insert_video_metadata`; `none` models the falsy-`meta` early return. -/
def insert_video_metadata (t : List VideoRow) (mo : Option VideoMeta) (now : ℤ) :
    List VideoRow :=
  match mo with
  | none => t
  | some m =>
    if t.any (fun r => r.id == m.id) then t.map (videoUpd m now)
    else t ++ [rowOfMeta m now]

/-- The `DO UPDATE SET start_time, end_time, text = EXCLUDED...` clause of
`insert_transcript_chunks` applied to one stored row. -/
def chunkUpd (c r : ChunkRow) : ChunkRow :=
  if r.id == c.id then
    { r with start_time := c.start_time, end_time := c.end_time, text := c.text }
  else r

def hasId (t : List ChunkRow) (i : String) : Bool := t.any (fun r => r.id == i)

/-- Upsert of a single `transcript_chunks` value row. -/
def chunkIns (t : List ChunkRow) (c : ChunkRow) : List ChunkRow :=
  if hasId t c.id then t.map (chunkUpd c) else t ++ [c]

/-- `insert_transcript_chunks` (`execute_values` runs the row upserts in
order; an empty list is the source's early return). -/
def insert_transcript_chunks (t : List ChunkRow) (cs : List ChunkRow) : List ChunkRow :=
  cs.foldl chunkIns t

/-! ## Audio normalisation (`audio_processor.trim_silence`)

The file system is an association list path ↦ content. The external
ffmpeg invocation is an environment value: it either succeeds producing
the normalised content at the `_trimmed` output path, exits zero without
creating the output, or exits non-zero (possibly leaving a partial file at
the output path). -/

abbrev FS := List (String × String)

def fsLookup : FS → String → Option String
  | [], _ => none
  | (q, c) :: rest, p => if q == p then some c else fsLookup rest p

def fsWrite : FS → String → String → FS
  | [], p, c => [(p, c)]
  | (q, d) :: rest, p, c =>
    if q == p then (p, c) :: rest else (q, d) :: fsWrite rest p c

def fsErase : FS → String → FS
  | [], _ => []
  | (q, d) :: rest, p => if q == p then fsErase rest p else (q, d) :: fsErase rest p

/-- `Path.stem` / `Path.suffix`: split at the last dot; the two parts
concatenate back to the name. -/
def splitExtL (p : List Char) : List Char × List Char :=
  match p.reverse.dropWhile (fun c => !(c == '.')) with
  | [] => (p, [])
  | _ :: stemRev => (stemRev.reverse, '.' :: (p.reverse.takeWhile (fun c => !(c == '.'))).reverse)

/-- `output_dir / f"{input_file.stem}_trimmed{input_file.suffix}"` with the
default output directory (the input's own directory). -/
def outPath (p : String) : String :=
  String.mk ((splitExtL p.data).1 ++ "_trimmed".data ++ (splitExtL p.data).2)

inductive TrimErr
  | sourceFileMissing
  | toolError
  | outputMissing
deriving DecidableEq

inductive FfmpegRun
  | ok (out : String)
  | okNoOutput
  | failed (leftover : Option String)
deriving DecidableEq

/-- `trim_silence(input_file)` with `output_dir = None`: returns the final
file system and either the returned path or the raised error. -/
def trim_silence (fs : FS) (input : String) (ff : FfmpegRun) :
    FS × Except TrimErr String :=
  if (fsLookup fs input).isNone then (fs, Except.error TrimErr.sourceFileMissing)
  else
    match ff with
    | FfmpegRun.failed leftover =>
      (match leftover with
       | some c => (fsWrite fs (outPath input) c, Except.error TrimErr.toolError)
       | none => (fs, Except.error TrimErr.toolError))
    | FfmpegRun.okNoOutput => (fs, Except.error TrimErr.outputMissing)
    | FfmpegRun.ok out =>
      let fs1 := fsWrite fs (outPath input) out
      let fs2 := fsErase fs1 input
      let fs3 := fsWrite (fsErase fs2 (outPath input)) input out
      (fs3, Except.ok input)

/-! ## Per-item fetch worker (`DownloadManager.download_video`)

Each attempt's external outcome is an environment value. On a new WAV
file the source archives the video and returns success no matter whether
`trim_silence` or the transcription raised (both are caught and only
logged); on any failing attempt it stores the error message, sleeps
`random.uniform(1, 5) * (attempt + 1)` unless the attempt was the last,
and retries. After `max_retries = 3` failed attempts one line
`f"{video_id}\t{timestamp}\t{last_error}"` goes to `failed_downloads.txt`
and the worker returns `(False, video_id)` — it never raises (every
branch of the embedding returns a value). -/

inductive AttemptOutcome
  | exnRaised (err : String)
  | toolFail (err : String)
  | noNewWav (err : String)
  | wav (trimOk : Bool) (transcribeOk : Bool)
deriving DecidableEq

def AttemptOutcome.errOf : AttemptOutcome → Option String
  | .exnRaised e => some e
  | .toolFail e => some e
  | .noNewWav e => some e
  | .wav _ _ => none

/-- Whether the attempt failed to produce a new WAV file. -/
def AttemptOutcome.fails (a : AttemptOutcome) : Bool := a.errOf.isSome

structure DlEnv where
  /-- Whether the best-effort `get_video_metadata` call succeeds. -/
  metaOk : Bool
  /-- Outcome of the k-th fetch attempt. -/
  attempts : ℕ → AttemptOutcome
  /-- The `random.uniform(1, 5)` draw of the k-th attempt. -/
  u : ℕ → ℤ
  /-- `datetime.now()` when the failure record is written. -/
  now : ℤ

structure FailRec where
  vid : String
  ts : ℤ
  err : Option String
deriving DecidableEq

structure DlResult where
  retSuccess : Bool
  retId : String
  archive : List String
  failLog : List FailRec
  fetchCalls : ℕ
  metaCalls : ℕ
  sleeps : List ℤ
deriving DecidableEq

/-- The `for attempt in range(max_retries)` loop, walking the outcomes of
the remaining attempts; `k` is the 0-based attempt index, the last
argument the running `last_error`. An empty remaining list is the loop
falling through: one failure record is appended and `(False, video_id)`
returned. The `rest = []` test is `attempt < max_retries - 1` deciding
whether to sleep `uniform(1, 5) * (attempt + 1)` before retrying. -/
def dlLoop (vid : String) (e : DlEnv) : List AttemptOutcome → ℕ → Option String → DlResult
  | [], _, lastErr => ⟨false, vid, [], [⟨vid, e.now, lastErr⟩], 0, 0, []⟩
  | a :: rest, k, _ =>
    match a with
    | .wav _ _ => ⟨true, vid, ["youtube " ++ vid], [], 1, 0, []⟩
    | .exnRaised err | .toolFail err | .noNewWav err =>
      let r := dlLoop vid e rest (k + 1) (some err)
      ⟨r.retSuccess, r.retId, r.archive, r.failLog, r.fetchCalls + 1, r.metaCalls,
        (if rest = [] then [] else [e.u k * ((k : ℤ) + 1)]) ++ r.sleeps⟩

/-- `DownloadManager.download_video`: one best-effort metadata fetch, then
the retry loop over `max_retries = 3` attempt outcomes. -/
def download_video (vid : String) (e : DlEnv) : DlResult :=
  let r := dlLoop vid e [e.attempts 0, e.attempts 1, e.attempts 2] 0 none
  { r with metaCalls := r.metaCalls + 1 }

/-- The scheduler's fan-out over a batch: one `download_video` per item,
results collected independently. -/
def download_batch (items : List (String × DlEnv)) : List DlResult :=
  items.map (fun it => download_video it.1 it.2)

/-- The per-item download step with the item's stored extraction timestamp
and the current time passed explicitly: `download_video` never reads
them — there is no freshness check anywhere in `DownloadManager`. -/
def download_step (storedExtractedAt : Option ℤ) (now : ℤ) (vid : String)
    (e : DlEnv) : DlResult :=
  download_video vid e

/-! ## Freshness check and per-video embedding step
(`embedder.process_channel`, lines 97-197) -/

/-- `last_processed and datetime.utcnow() - last_processed <
timedelta(hours=24)` with times in hours. -/
def videoFresh (last : Option ℤ) (now : ℤ) : Bool :=
  match last with
  | none => false
  | some t => decide (now - t < 24)

inductive VideoStepOut
  | skippedFresh
  | missingMeta
  | metaLoadError
  | metaDbError
  | transcriptError
  | chunksDbError
  | chromaError
  | done
deriving DecidableEq

/-- The store writes performed for one video. -/
structure VideoWrites where
  metaWrites : List VideoMeta
  chunkWrites : List (List ChunkRow)
  chromaWrites : List (List String)
deriving DecidableEq

structure VideoEnv where
  /-- `check_video_metadata(video_id)`: the stored `extracted_at`, if any. -/
  lastProcessed : Option ℤ
  /-- Metadata file: missing, unreadable, or loaded. -/
  metaFile : Option (Option VideoMeta)
  dbMetaOk : Bool
  /-- Transcript file: unreadable or its segments. -/
  transcriptFile : Option (List Segment)
  dbChunksOk : Bool
  chromaOk : Bool

/-- The body of the per-video loop of `process_channel`: freshness check,
metadata load and insert, transcript load, chunking, relational insert,
Chroma batches. Every `continue` of the source is a `skipped…`/error
outcome. -/
def process_video (ch vid : String) (now : ℤ) (env : VideoEnv) :
    VideoStepOut × VideoWrites :=
  if videoFresh env.lastProcessed now then (VideoStepOut.skippedFresh, ⟨[], [], []⟩)
  else
    match env.metaFile with
    | none => (VideoStepOut.missingMeta, ⟨[], [], []⟩)
    | some none => (VideoStepOut.metaLoadError, ⟨[], [], []⟩)
    | some (some m) =>
      if !env.dbMetaOk then (VideoStepOut.metaDbError, ⟨[], [], []⟩)
      else
        match env.transcriptFile with
        | none => (VideoStepOut.transcriptError, ⟨[m], [], []⟩)
        | some segs =>
          if !env.dbChunksOk then (VideoStepOut.chunksDbError, ⟨[m], [], []⟩)
          else if !env.chromaOk then
            (VideoStepOut.chromaError, ⟨[m], [pgChunkRows ch vid segs], []⟩)
          else
            (VideoStepOut.done,
              ⟨[m], [pgChunkRows ch vid segs], chromaIdBatches ch vid segs⟩)

/-! ## Rate limiter (`DownloadManager.rate_limit_wait`)

`elapsed = time.time() - self.last_request_time; if elapsed < rate_limit:
sleep(rate_limit - elapsed); self.last_request_time = time.time()`. The
grant (wake-up) time computed from a read of the shared clock is
`rate_limit_grant`; sequential calls chain it through `grantTimes`. The
method takes no lock, so under concurrency the read and the write of
`last_request_time` are separate steps (`raceStep`). -/

def rate_limit_grant (r last t : ℤ) : ℤ := if t - last < r then last + r else t

def grantTimes (r : ℤ) : ℤ → List ℤ → List ℤ
  | _, [] => []
  | last, t :: ts =>
    rate_limit_grant r last t :: grantTimes r (rate_limit_grant r last t) ts

structure RaceState where
  last : ℤ
  wA : Option ℤ
  wB : Option ℤ
  grants : List ℤ
deriving DecidableEq

inductive RaceAct
  | readA (t : ℤ)
  | readB (t : ℤ)
  | writeA
  | writeB

/-- One interleaving step of two workers inside `rate_limit_wait`:
a read computes the worker's wake-up time from the shared clock; the
write commits it to `last_request_time` (the grant happens at wake-up). -/
def raceStep (r : ℤ) (s : RaceState) : RaceAct → RaceState
  | RaceAct.readA t => { s with wA := some (rate_limit_grant r s.last t) }
  | RaceAct.readB t => { s with wB := some (rate_limit_grant r s.last t) }
  | RaceAct.writeA =>
    match s.wA with
    | some w => { s with last := w, wA := none, grants := s.grants ++ [w] }
    | none => s
  | RaceAct.writeB =>
    match s.wB with
    | some w => { s with last := w, wB := none, grants := s.grants ++ [w] }
    | none => s

def raceRun (r : ℤ) (s : RaceState) (acts : List RaceAct) : RaceState :=
  acts.foldl (raceStep r) s

/-! ## Single-item mode (`DownloadManager.download_single_video`) -/

structure SingleEnv where
  /-- Whether the initial `--dump-single-json` info fetch exits zero. -/
  infoOk : Bool
  /-- The lines of `downloaded_videos.txt`. -/
  archiveLines : List String
  /-- How long ago the item was last processed; the source never reads
  it — no freshness window applies in single-item mode. -/
  storedExtractedAt : Option ℤ
  now : ℤ
  dv : DlEnv

/-- Returns the source's boolean result and the number of
`download_video` invocations performed. -/
def download_single_video (vid : String) (e : SingleEnv) : Bool × ℕ :=
  if e.infoOk then
    if e.archiveLines.any (fun line => containsSub line.data vid.data) then (true, 0)
    else ((download_video vid e.dv).retSuccess, 1)
  else (false, 0)

/-! ## Concrete environments for the worker claims -/

/-- A video whose only attempt yields a WAV file, `trim_silence` succeeds
and transcription raises on it (so transcription fails on every attempt
made). -/
def envTranscribeFail : DlEnv :=
  ⟨true, fun _ => AttemptOutcome.wav true false, fun _ => 1, 0⟩

/-- Every fetch attempt exits non-zero. -/
def envAllFail : DlEnv :=
  ⟨true, fun _ => AttemptOutcome.toolFail "boom", fun _ => 2, 7⟩

/-- A concrete video metadata value. -/
def m0 : VideoMeta := ⟨"v", none, "t", "", none, 0, 0, 0, [], "en", ""⟩

/-- Two concrete chunk rows with distinct ids. -/
def cs0 : List ChunkRow :=
  [⟨"c-v-0", "v", "c", 0, 0, 2, "a".data⟩, ⟨"c-v-1", "v", "c", 1, 2, 4, "b".data⟩]

/-- A per-video embedding environment whose stored `extracted_at` is one
hour old at `now = 24`. -/
def envFresh : VideoEnv := ⟨some 23, none, true, none, true, true⟩

/-- Single-item mode: the info fetch succeeds and one archive line
contains the requested id `"abc"` strictly as a substring. -/
def envSingle : SingleEnv := ⟨true, ["youtube zzabczz"], some 9999, 10000, envAllFail⟩

/-- Two workers about to race on a limiter whose last grant was at 4. -/
def raceS0 : RaceState := ⟨4, none, none, []⟩

/-- The interleaving where both workers read the stale clock at time 5
before either writes it back. -/
def raceSched : List RaceAct :=
  [RaceAct.readA 5, RaceAct.readB 5, RaceAct.writeA, RaceAct.writeB]

/-- A concrete two-segment transcript whose texts strip to nonempty
words. -/
def segsW : List Segment := [⟨0, 2, "hi there".data⟩, ⟨2, 4, "friend".data⟩]

/-! ## General list facts -/

theorem dropWhile_head_false {p : α → Bool} :
    ∀ {l : List α} {a : α} {t : List α}, l.dropWhile p = a :: t → p a = false := by
  intro l
  induction l with
  | nil => intro a t h; simp [List.dropWhile] at h
  | cons x xs ih =>
    intro a t h
    rw [List.dropWhile_cons] at h
    by_cases hx : p x = true
    · simp [hx] at h; exact ih h
    · simp [hx] at h
      obtain ⟨h1, _⟩ := h
      simp [← h1]; simpa using hx

theorem dropWhile_append_keep {p : α → Bool} :
    ∀ {l : List α}, (∃ x ∈ l, p x = false) → ∀ (m : List α),
      (l ++ m).dropWhile p = l.dropWhile p ++ m := by
  intro l
  induction l with
  | nil => intro h; simp at h
  | cons x xs ih =>
    intro h m
    by_cases hx : p x = true
    · have hw : ∃ y ∈ xs, p y = false := by
        obtain ⟨y, hy, hpy⟩ := h
        rcases List.mem_cons.mp hy with h1 | h1
        · subst h1; rw [hpy] at hx; cases hx
        · exact ⟨y, h1, hpy⟩
      simp only [List.cons_append, List.dropWhile_cons, hx, if_true]
      exact ih hw m
    · have hx' : p x = false := by simpa using hx
      simp [List.dropWhile_cons, hx']

theorem dropWhile_append_all {p : α → Bool} :
    ∀ {l : List α}, (∀ x ∈ l, p x = true) → ∀ (m : List α),
      (l ++ m).dropWhile p = m.dropWhile p := by
  intro l
  induction l with
  | nil => intro _ m; simp
  | cons x xs ih =>
    intro h m
    have hx : p x = true := h x (by simp)
    simp only [List.cons_append, List.dropWhile_cons, hx, if_true]
    exact ih (fun y hy => h y (by simp [hy])) m

theorem map_fst_zip_of_le :
    ∀ (l1 : List α) (l2 : List β), l1.length ≤ l2.length →
      (l1.zip l2).map Prod.fst = l1 := by
  intro l1
  induction l1 with
  | nil => intro l2 _; simp
  | cons x xs ih =>
    intro l2 h
    cases l2 with
    | nil => simp at h
    | cons y ys => simpa using ih ys (by simpa using h)

/-! ## Facts about `strip` -/

theorem stripL_eq_of_edge {w : List Char} (hw : w ≠ []) (he : edgeOkL w = true)
    (m : List Char) : stripL (w ++ m) = w ++ m := by
  cases w with
  | nil => cases hw rfl
  | cons c t =>
    have hc : isSp c = false := by
      simp [edgeOkL] at he; simpa using he
    simp [stripL, List.dropWhile_cons, hc]

theorem stripR_snoc_sp {w : List Char} (hw : w ≠ [])
    (he : edgeOkL w.reverse = true) : stripR (w ++ [' ']) = w := by
  have hrev : w.reverse ≠ [] := by simpa using hw
  obtain ⟨d, t, hdt⟩ := List.exists_cons_of_ne_nil hrev
  have hd : isSp d = false := by
    rw [hdt] at he; simp [edgeOkL] at he; simpa using he
  have hsp : isSp ' ' = true := by decide
  simp only [stripR, List.reverse_append]
  rw [show ([' '] : List Char).reverse = [' '] from rfl]
  simp only [List.singleton_append, List.dropWhile_cons, hsp, if_true]
  rw [hdt, List.dropWhile_cons, hd]
  simp [← hdt]

theorem stripR_append_keep {xs ys : List Char} (h : ∃ d ∈ ys, isSp d = false) :
    stripR (xs ++ ys) = xs ++ stripR ys := by
  have h' : ∃ d ∈ ys.reverse, isSp d = false := by
    obtain ⟨d, hd, hpd⟩ := h; exact ⟨d, List.mem_reverse.mpr hd, hpd⟩
  simp only [stripR, List.reverse_append]
  rw [dropWhile_append_keep h', List.reverse_append, List.reverse_reverse]

theorem flat_cons (w : List Char) (ws : List (List Char)) :
    flat (w :: ws) = (w ++ [' ']) ++ flat ws := by
  simp [flat]

theorem flat_snoc (g : List (List Char)) (w : List Char) :
    flat (g ++ [w]) = flat g ++ (w ++ [' ']) := by
  simp [flat]

theorem joinSp_cons_ne {w : List Char} {ws : List (List Char)} (h : ws ≠ []) :
    joinSp (w :: ws) = w ++ ' ' :: joinSp ws := by
  cases ws with
  | nil => cases h rfl
  | cons v vs => rfl

theorem joinSp_append {xs ys : List (List Char)} (hx : xs ≠ []) (hy : ys ≠ []) :
    joinSp (xs ++ ys) = joinSp xs ++ ' ' :: joinSp ys := by
  induction xs with
  | nil => cases hx rfl
  | cons w ws ih =>
    cases ws with
    | nil =>
      rw [List.singleton_append, joinSp_cons_ne hy]
      rfl
    | cons v vs =>
      have hne : (v :: vs) ++ ys ≠ [] := by simp
      rw [List.cons_append, joinSp_cons_ne hne, ih (by simp),
        joinSp_cons_ne (by simp : (v :: vs) ≠ [])]
      simp

theorem strip_flat :
    ∀ {ws : List (List Char)}, ws ≠ [] → (∀ w ∈ ws, goodWord w) →
      strip (flat ws) = joinSp ws := by
  intro ws
  induction ws with
  | nil => intro h; cases h rfl
  | cons w tail ih =>
    intro _ hg
    obtain ⟨hwne, hwhead, hwlast⟩ := hg w (by simp)
    cases tail with
    | nil =>
      show strip (flat [w]) = joinSp [w]
      have : flat [w] = w ++ [' '] := by simp [flat]
      rw [this]
      unfold strip
      rw [stripL_eq_of_edge hwne hwhead [' ']]
      exact stripR_snoc_sp hwne hwlast
    | cons w2 tail2 =>
      obtain ⟨hw2ne, hw2head, _⟩ := hg w2 (by simp)
      obtain ⟨c2, t2, hc2⟩ := List.exists_cons_of_ne_nil hw2ne
      have hc2sp : isSp c2 = false := by
        rw [hc2] at hw2head; simp [edgeOkL] at hw2head; simpa using hw2head
      have hmem : ∃ d ∈ flat (w2 :: tail2), isSp d = false := by
        refine ⟨c2, ?_, hc2sp⟩
        rw [flat_cons, hc2]; simp
      have hL2 : stripL (flat (w2 :: tail2)) = flat (w2 :: tail2) := by
        rw [flat_cons, List.append_assoc]
        exact stripL_eq_of_edge hw2ne hw2head _
      have ihtail : strip (flat (w2 :: tail2)) = joinSp (w2 :: tail2) :=
        ih (by simp) (fun x hx => hg x (by simp [hx]))
      have key : strip (flat (w :: w2 :: tail2))
          = (w ++ [' ']) ++ stripR (flat (w2 :: tail2)) := by
        unfold strip
        rw [flat_cons, List.append_assoc, stripL_eq_of_edge hwne hwhead _,
          ← List.append_assoc, stripR_append_keep hmem]
      have hR : stripR (flat (w2 :: tail2)) = joinSp (w2 :: tail2) := by
        have hRL : strip (flat (w2 :: tail2)) = stripR (flat (w2 :: tail2)) := by
          unfold strip; rw [hL2]
        rw [← hRL, ihtail]
      rw [key, hR, joinSp_cons_ne (by simp : (w2 :: tail2 : List (List Char)) ≠ [])]
      simp

theorem strip_goodWord {s : List Char} (h : strip s ≠ []) : goodWord (strip s) := by
  have hY : stripL s ≠ [] := by
    intro hy
    apply h
    unfold strip
    rw [hy]
    rfl
  obtain ⟨c, t, hct⟩ := List.exists_cons_of_ne_nil hY
  have hc : isSp c = false := dropWhile_head_false (l := s) hct
  refine ⟨h, ?_, ?_⟩
  · -- head of the strip is the head of `stripL s`
    have hhd : (strip s).head? = some c := by
      unfold strip
      rw [hct]
      by_cases hall : ∀ x ∈ t.reverse, isSp x = true
      · have h1 : (t.reverse ++ [c]).dropWhile isSp = [c].dropWhile isSp :=
          dropWhile_append_all hall [c]
        have h2 : ([c] : List Char).dropWhile isSp = [c] := by
          simp [List.dropWhile_cons, hc]
        unfold stripR
        rw [show (c :: t).reverse = t.reverse ++ [c] by simp, h1, h2]
        simp
      · push_neg at hall
        obtain ⟨x, hx, hpx⟩ := hall
        have hpx' : isSp x = false := by simpa using hpx
        unfold stripR
        rw [show (c :: t).reverse = t.reverse ++ [c] by simp,
          dropWhile_append_keep ⟨x, hx, hpx'⟩ [c]]
        simp
    cases hs : strip s with
    | nil => cases h hs
    | cons a l =>
      rw [hs] at hhd
      simp at hhd
      simp [edgeOkL, hhd, hc]
  · -- the reverse of the strip starts with the last kept character
    have hrev : (strip s).reverse = (stripL s).reverse.dropWhile isSp := by
      simp [strip, stripR]
    cases hr : (strip s).reverse with
    | nil =>
      exfalso; apply h; simpa using hr
    | cons a l =>
      rw [hrev] at hr
      have ha := dropWhile_head_false (l := (stripL s).reverse) hr
      simp [edgeOkL, ha]

/-! ## Facts about the chunker -/

theorem chunkStep_ne_nil :
    ∀ (segs : List Segment) (i : ℕ) (buf : List Char) (st : Option ℤ),
      segs ≠ [] → chunkStep segs i buf st ≠ [] := by
  intro segs
  induction segs with
  | nil => intro _ _ _ h; cases h rfl
  | cons seg rest ih =>
    intro i buf st _
    rw [chunkStep]
    split
    · simp
    · next hcond =>
      push_neg at hcond
      exact ih _ _ _ hcond.2

/-- The heart of the partition property: running the loop with a buffer
holding the already-folded words `g` emits, across all windows, exactly
the space-join of `g` followed by the remaining stripped segment texts —
provided every stripped text is a nonempty word (an empty strip still
appends a separating space to the buffer and breaks the equality). -/
theorem chunkStep_joinSp :
    ∀ (segs : List Segment) (g : List (List Char)) (i : ℕ) (st : Option ℤ),
      (∀ s ∈ segs, strip s.text ≠ []) →
      (∀ w ∈ g, goodWord w) →
      (segs = [] → g = []) →
      joinSp ((chunkStep segs i (flat g) st).map Chunk.text) =
        joinSp (g ++ segs.map (fun s => strip s.text)) := by
  intro segs
  induction segs with
  | nil =>
    intro g i st _ _ hnil
    rw [hnil rfl]
    rfl
  | cons seg rest ih =>
    intro g i st hs hg hnil
    have hsne : strip seg.text ≠ [] := hs seg (by simp)
    have hsgood : goodWord (strip seg.text) := strip_goodWord hsne
    have hgs : ∀ w ∈ g ++ [strip seg.text], goodWord w := by
      intro w hw
      rcases List.mem_append.mp hw with h1 | h1
      · exact hg w h1
      · simp at h1; rw [h1]; exact hsgood
    have hbuf : flat g ++ strip seg.text ++ [' '] = flat (g ++ [strip seg.text]) := by
      rw [flat_snoc, List.append_assoc]
    rw [chunkStep]
    split
    · next hclose =>
      have hemit : strip (flat g ++ strip seg.text ++ [' '])
          = joinSp (g ++ [strip seg.text]) := by
        rw [hbuf]
        exact strip_flat (by simp) hgs
      by_cases hrestnil : rest = []
      · subst hrestnil
        rw [show chunkStep [] (i + 1) [] none = [] from rfl]
        simp only [List.map_cons, List.map_nil]
        rw [show ∀ w : List Char, joinSp [w] = w from fun _ => rfl, hemit]
      · have htailne : chunkStep rest (i + 1) [] none ≠ [] :=
          chunkStep_ne_nil _ _ _ _ hrestnil
        have hmapne : (chunkStep rest (i + 1) [] none).map Chunk.text ≠ [] := by
          simpa using htailne
        have ihtail :
            joinSp ((chunkStep rest (i + 1) (flat []) none).map Chunk.text) =
              joinSp ([] ++ rest.map (fun s => strip s.text)) :=
          ih [] (i + 1) none (fun s hsm => hs s (List.mem_cons_of_mem _ hsm))
            (by simp) (fun _ => rfl)
        rw [show flat ([] : List (List Char)) = [] from rfl,
          List.nil_append] at ihtail
        simp only [List.map_cons]
        rw [joinSp_cons_ne hmapne, hemit, ihtail]
        have hx : (g ++ [strip seg.text] : List (List Char)) ≠ [] := by simp
        have hy : rest.map (fun s => strip s.text) ≠ ([] : List (List Char)) := by
          simpa using hrestnil
        rw [← joinSp_append hx hy]
        simp
    · next hcond =>
      push_neg at hcond
      obtain ⟨_, hrestne⟩ := hcond
      have ihtail :
          joinSp ((chunkStep rest (i + 1)
              (flat (g ++ [strip seg.text]))
              (if pyFalsyTime st = true then some seg.start else st)).map Chunk.text) =
            joinSp ((g ++ [strip seg.text]) ++ rest.map (fun s => strip s.text)) := by
        refine ih (g ++ [strip seg.text]) (i + 1) _ ?_ hgs ?_
        · intro s hsm; exact hs s (List.mem_cons_of_mem _ hsm)
        · intro hrnil; cases hrestne hrnil
      rw [← hbuf] at ihtail
      rw [ihtail]
      simp

/-- The space-join of all emitted chunk texts equals the space-join of all
stripped segment texts, whenever no segment strips to the empty string. -/
theorem chunkSegments_partition (segs : List Segment)
    (h : ∀ s ∈ segs, strip s.text ≠ []) :
    joinSp ((chunkSegments segs).map Chunk.text) =
      joinSp (segs.map (fun s => strip s.text)) := by
  have hmain := chunkStep_joinSp segs [] 0 none h (by simp) (by intro _; rfl)
  simpa [chunkSegments] using hmain

/-! ## Facts about the id plumbing -/

theorem chunksOf100_flatten : ∀ (l : List α), (chunksOf100 l).flatten = l := by
  intro l
  have H : ∀ (n : ℕ) (l : List α), l.length ≤ n → (chunksOf100 l).flatten = l := by
    intro n
    induction n with
    | zero =>
      intro l hl
      have hz : l = [] := List.eq_nil_of_length_eq_zero (Nat.le_zero.mp hl)
      rw [hz]
      simp [chunksOf100]
    | succ n ihn =>
      intro l hl
      cases l with
      | nil => simp [chunksOf100]
      | cons x xs =>
        have hlen : ((x :: xs).drop 100).length ≤ n := by
          simp only [List.length_drop, List.length_cons]
          simp only [List.length_cons] at hl
          omega
        rw [chunksOf100]
        simp only [List.flatten_cons]
        rw [ihn ((x :: xs).drop 100) hlen]
        exact List.take_append_drop 100 (x :: xs)
  exact H l.length l le_rfl

theorem pgRowsAux_map_id :
    ∀ (L : List (String × Chunk)) (vid ch : String) (idx : ℕ),
      (pgRowsAux vid ch idx L).map ChunkRow.id = L.map Prod.fst := by
  intro L
  induction L with
  | nil => intro vid ch idx; rfl
  | cons p rest ih =>
    intro vid ch idx
    cases p with
    | mk idStr c => simp [pgRowsAux, ih]

/-! ## Facts about the relational upserts -/

theorem chunkUpd_id (c r : ChunkRow) : (chunkUpd c r).id = r.id := by
  unfold chunkUpd
  split <;> rfl

theorem chunkUpd_self (c : ChunkRow) : chunkUpd c c = c := by
  unfold chunkUpd
  cases c
  simp

theorem chunkUpd_idem (c r : ChunkRow) : chunkUpd c (chunkUpd c r) = chunkUpd c r := by
  unfold chunkUpd
  by_cases h : r.id == c.id
  · simp [h]
  · simp [h]

theorem chunkUpd_of_eq {c r : ChunkRow} (h : r.id = c.id) :
    chunkUpd c r =
      { r with start_time := c.start_time, end_time := c.end_time, text := c.text } := by
  simp [chunkUpd, h]

theorem chunkUpd_of_ne {c r : ChunkRow} (h : r.id ≠ c.id) : chunkUpd c r = r := by
  simp [chunkUpd, h]

theorem chunkUpd_comm {c d : ChunkRow} (h : c.id ≠ d.id) (r : ChunkRow) :
    chunkUpd c (chunkUpd d r) = chunkUpd d (chunkUpd c r) := by
  by_cases h1 : r.id = d.id
  · have h2 : r.id ≠ c.id := by
      rw [h1]
      exact fun hh => h hh.symm
    rw [chunkUpd_of_ne h2,
      chunkUpd_of_ne (r := chunkUpd d r) (by rw [chunkUpd_id]; exact h2)]
  · rw [chunkUpd_of_ne h1,
      chunkUpd_of_ne (r := chunkUpd c r) (by rw [chunkUpd_id]; exact h1)]

theorem hasId_map_chunkUpd (c : ChunkRow) (t : List ChunkRow) (i : String) :
    hasId (t.map (chunkUpd c)) i = hasId t i := by
  induction t with
  | nil => rfl
  | cons r rest ih =>
    show hasId (chunkUpd c r :: rest.map (chunkUpd c)) i = hasId (r :: rest) i
    unfold hasId at ih ⊢
    simp only [List.any_cons, chunkUpd_id]
    rw [ih]

theorem chunkIns_of_hasId {t : List ChunkRow} {c : ChunkRow}
    (h : hasId t c.id = true) : chunkIns t c = t.map (chunkUpd c) := by
  unfold chunkIns
  rw [if_pos h]

theorem chunkIns_of_not_hasId {t : List ChunkRow} {c : ChunkRow}
    (h : ¬ hasId t c.id = true) : chunkIns t c = t ++ [c] := by
  unfold chunkIns
  rw [if_neg h]

theorem hasId_chunkIns_self (t : List ChunkRow) (c : ChunkRow) :
    hasId (chunkIns t c) c.id = true := by
  unfold chunkIns
  by_cases h : hasId t c.id
  · rw [if_pos h, hasId_map_chunkUpd]
    exact h
  · rw [if_neg h]
    simp [hasId]

theorem hasId_chunkIns_mono {t : List ChunkRow} {i : String}
    (h : hasId t i = true) (d : ChunkRow) : hasId (chunkIns t d) i = true := by
  unfold chunkIns
  split
  · rw [hasId_map_chunkUpd]
    exact h
  · unfold hasId at h ⊢
    rw [List.any_append, h]
    rfl

theorem map_chunkUpd_chunkIns {c d : ChunkRow} (h : c.id ≠ d.id) (t : List ChunkRow) :
    (chunkIns t d).map (chunkUpd c) = chunkIns (t.map (chunkUpd c)) d := by
  unfold chunkIns
  rw [hasId_map_chunkUpd]
  by_cases hd : hasId t d.id
  · rw [if_pos hd, if_pos hd, List.map_map, List.map_map]
    apply List.map_congr_left
    intro r _
    exact chunkUpd_comm h r
  · rw [if_neg hd, if_neg hd, List.map_append]
    congr 1
    simp only [List.map_cons, List.map_nil]
    congr 1
    unfold chunkUpd
    have hne : (d.id == c.id) = false := by
      simp
      intro hh
      exact h hh.symm
    simp [hne]

theorem chunkIns_push {c : ChunkRow} :
    ∀ (cs : List ChunkRow) {s : List ChunkRow},
      hasId s c.id = true → (∀ d ∈ cs, d.id ≠ c.id) →
      chunkIns (insert_transcript_chunks s cs) c =
        insert_transcript_chunks (chunkIns s c) cs := by
  intro cs
  induction cs with
  | nil => intro s _ _; rfl
  | cons d rest ih =>
    intro s hsc hd
    have hdc : d.id ≠ c.id := hd d (by simp)
    have hcd : c.id ≠ d.id := fun hh => hdc hh.symm
    show chunkIns (insert_transcript_chunks (chunkIns s d) rest) c =
      insert_transcript_chunks (chunkIns (chunkIns s c) d) rest
    rw [ih (hasId_chunkIns_mono hsc d) (fun x hx => hd x (by simp [hx]))]
    congr 1
    rw [chunkIns_of_hasId (hasId_chunkIns_mono hsc d), chunkIns_of_hasId hsc,
      map_chunkUpd_chunkIns hcd]

theorem chunkIns_idem (t : List ChunkRow) (c : ChunkRow) :
    chunkIns (chunkIns t c) c = chunkIns t c := by
  by_cases h : hasId t c.id
  · have h1 : chunkIns t c = t.map (chunkUpd c) := chunkIns_of_hasId h
    have h2 : chunkIns (t.map (chunkUpd c)) c = (t.map (chunkUpd c)).map (chunkUpd c) :=
      chunkIns_of_hasId (by rw [hasId_map_chunkUpd]; exact h)
    rw [h1, h2, List.map_map]
    apply List.map_congr_left
    intro r _
    exact chunkUpd_idem c r
  · have h1 : chunkIns t c = t ++ [c] := chunkIns_of_not_hasId h
    have hmem : hasId (t ++ [c]) c.id = true := by
      unfold hasId
      rw [List.any_append]
      simp
    have h2 : chunkIns (t ++ [c]) c = (t ++ [c]).map (chunkUpd c) :=
      chunkIns_of_hasId hmem
    have hall : ∀ r ∈ t, (r.id == c.id) = false := by
      intro r hr
      by_contra hcon
      apply h
      unfold hasId
      rw [List.any_eq_true]
      exact ⟨r, hr, by simpa using hcon⟩
    have h3 : t.map (chunkUpd c) = t := by
      have hcg : ∀ r ∈ t, chunkUpd c r = id r := by
        intro r hr
        unfold chunkUpd
        rw [hall r hr]
        rfl
      rw [List.map_congr_left hcg, List.map_id]
    rw [h1, h2, List.map_append]
    simp only [List.map_cons, List.map_nil]
    rw [h3, chunkUpd_self]

/-- Re-applying `insert_transcript_chunks` with the same chunk list (with
pairwise distinct ids, as one pipeline pass produces) is the identity. -/
theorem insert_transcript_chunks_idem :
    ∀ (cs : List ChunkRow) (t : List ChunkRow), (cs.map ChunkRow.id).Nodup →
      insert_transcript_chunks (insert_transcript_chunks t cs) cs =
        insert_transcript_chunks t cs := by
  intro cs
  induction cs with
  | nil => intro t _; rfl
  | cons c rest ih =>
    intro t hnd
    simp only [List.map_cons, List.nodup_cons] at hnd
    obtain ⟨hnotin, hndrest⟩ := hnd
    have hdist : ∀ d ∈ rest, d.id ≠ c.id := by
      intro d hd hdc
      exact hnotin (hdc ▸ List.mem_map_of_mem ChunkRow.id hd)
    have hstep : insert_transcript_chunks t (c :: rest)
        = insert_transcript_chunks (chunkIns t c) rest := rfl
    rw [hstep]
    have hpush := chunkIns_push (c := c) rest
      (s := chunkIns t c) (hasId_chunkIns_self t c) hdist
    have hunfold : insert_transcript_chunks
        (insert_transcript_chunks (chunkIns t c) rest) (c :: rest)
        = insert_transcript_chunks
            (chunkIns (insert_transcript_chunks (chunkIns t c) rest) c) rest := rfl
    rw [hunfold, hpush, chunkIns_idem]
    exact ih (chunkIns t c) hndrest

theorem videoUpd_id (m : VideoMeta) (now : ℤ) (r : VideoRow) :
    (videoUpd m now r).id = r.id := by
  unfold videoUpd
  split <;> rfl

theorem videoUpd_of_eq {m : VideoMeta} {now : ℤ} {r : VideoRow} (h : r.id = m.id) :
    videoUpd m now r =
      { r with title := m.title, description := m.description,
               view_count := m.view_count, like_count := m.like_count,
               extracted_at := now } := by
  simp [videoUpd, h]

theorem videoUpd_of_ne {m : VideoMeta} {now : ℤ} {r : VideoRow} (h : r.id ≠ m.id) :
    videoUpd m now r = r := by
  simp [videoUpd, h]

theorem ivm_of_any {t : List VideoRow} {m : VideoMeta} {now : ℤ}
    (h : t.any (fun r => r.id == m.id) = true) :
    insert_video_metadata t (some m) now = t.map (videoUpd m now) := by
  show (if (t.any fun r => r.id == m.id) = true then t.map (videoUpd m now)
    else t ++ [rowOfMeta m now]) = t.map (videoUpd m now)
  rw [if_pos h]

theorem ivm_of_not_any {t : List VideoRow} {m : VideoMeta} {now : ℤ}
    (h : ¬ t.any (fun r => r.id == m.id) = true) :
    insert_video_metadata t (some m) now = t ++ [rowOfMeta m now] := by
  show (if (t.any fun r => r.id == m.id) = true then t.map (videoUpd m now)
    else t ++ [rowOfMeta m now]) = t ++ [rowOfMeta m now]
  rw [if_neg h]

theorem any_map_videoUpd (m : VideoMeta) (now : ℤ) (t : List VideoRow) (i : String) :
    (t.map (videoUpd m now)).any (fun r => r.id == i) = t.any (fun r => r.id == i) := by
  induction t with
  | nil => rfl
  | cons r rest ih => simp only [List.map_cons, List.any_cons, videoUpd_id, ih]

theorem ivm_any_self (t : List VideoRow) (m : VideoMeta) (now : ℤ) :
    (insert_video_metadata t (some m) now).any (fun r => r.id == m.id) = true := by
  by_cases h : t.any (fun r => r.id == m.id) = true
  · rw [ivm_of_any h, any_map_videoUpd]
    exact h
  · rw [ivm_of_not_any h, List.any_append]
    simp [rowOfMeta]

theorem ivm_mem_updated {t : List VideoRow} {m : VideoMeta} {now : ℤ} :
    ∀ r ∈ insert_video_metadata t (some m) now, r.id = m.id →
      r.title = m.title ∧ r.description = m.description ∧
      r.view_count = m.view_count ∧ r.like_count = m.like_count ∧
      r.extracted_at = now := by
  intro r hr hid
  by_cases h : t.any (fun x => x.id == m.id) = true
  · rw [ivm_of_any h] at hr
    obtain ⟨x, hx, hrx⟩ := List.mem_map.mp hr
    by_cases hxid : x.id = m.id
    · rw [← hrx, videoUpd_of_eq hxid]
      simp
    · rw [← hrx, videoUpd_of_ne hxid] at hid ⊢
      exact absurd hid hxid
  · rw [ivm_of_not_any h] at hr
    rcases List.mem_append.mp hr with h1 | h1
    · exfalso
      apply h
      rw [List.any_eq_true]
      exact ⟨r, h1, by simpa using hid⟩
    · simp at h1
      rw [h1]
      simp [rowOfMeta]

/-- Re-applying `insert_video_metadata` with the same `meta` only refreshes
`extracted_at` (to the clock value of the second application); every other
stored field, the row order and the row count are unchanged. -/
theorem insert_video_metadata_reapply (t : List VideoRow) (m : VideoMeta) (n1 n2 : ℤ) :
    insert_video_metadata (insert_video_metadata t (some m) n1) (some m) n2 =
      (insert_video_metadata t (some m) n1).map
        (fun r => if r.id == m.id then { r with extracted_at := n2 } else r) := by
  rw [ivm_of_any (ivm_any_self t m n1)]
  apply List.map_congr_left
  intro r hr
  by_cases hid : r.id = m.id
  · obtain ⟨ht, hdesc, hvc, hlc, _⟩ := ivm_mem_updated r hr hid
    rw [videoUpd_of_eq hid, if_pos (by simpa using hid)]
    cases r
    simp_all
  · rw [videoUpd_of_ne hid, if_neg (by simpa using hid)]

theorem insert_video_metadata_idem (t : List VideoRow) (m : VideoMeta) (n : ℤ) :
    insert_video_metadata (insert_video_metadata t (some m) n) (some m) n =
      insert_video_metadata t (some m) n := by
  rw [insert_video_metadata_reapply]
  have hpt : ∀ r ∈ insert_video_metadata t (some m) n,
      (if r.id == m.id then { r with extracted_at := n } else r) = id r := by
    intro r hr
    by_cases hid : r.id = m.id
    · obtain ⟨_, _, _, _, hext⟩ := ivm_mem_updated r hr hid
      rw [if_pos (by simpa using hid)]
      cases r
      simp_all
    · rw [if_neg (by simpa using hid)]
      rfl
  rw [List.map_congr_left hpt, List.map_id]

/-! ## Facts about the file-system model and `trim_silence` -/

theorem fsLookup_write_self : ∀ (fs : FS) (p c : String),
    fsLookup (fsWrite fs p c) p = some c := by
  intro fs
  induction fs with
  | nil => intro p c; simp [fsWrite, fsLookup]
  | cons e rest ih =>
    intro p c
    cases e with
    | mk q d =>
      by_cases h : q = p
      · simp [fsWrite, fsLookup, h]
      · have hb : (q == p) = false := by simpa using h
        simp [fsWrite, fsLookup, hb, ih]

theorem fsLookup_write_ne : ∀ (fs : FS) {p q : String} (c : String), q ≠ p →
    fsLookup (fsWrite fs p c) q = fsLookup fs q := by
  intro fs
  induction fs with
  | nil =>
    intro p q c h
    have hb : (p == q) = false := by
      simp
      exact fun hh => h hh.symm
    simp [fsWrite, fsLookup, hb]
  | cons e rest ih =>
    intro p q c h
    cases e with
    | mk qq d =>
      by_cases h1 : qq = p
      · have hb : (p == q) = false := by
          simp
          exact fun hh => h hh.symm
        have hb2 : (qq == q) = false := by
          rw [h1]
          exact hb
        simp [fsWrite, fsLookup, h1, hb, hb2]
      · have hb1 : (qq == p) = false := by simpa using h1
        by_cases h2 : qq = q
        · simp [fsWrite, fsLookup, hb1, h2, h]
        · have hb2 : (qq == q) = false := by simpa using h2
          simp [fsWrite, fsLookup, hb1, hb2, ih (c := c) h]

theorem fsLookup_erase_self : ∀ (fs : FS) (p : String),
    fsLookup (fsErase fs p) p = none := by
  intro fs
  induction fs with
  | nil => intro p; rfl
  | cons e rest ih =>
    intro p
    cases e with
    | mk q d =>
      by_cases h : q = p
      · simp [fsErase, h, ih]
      · have hb : (q == p) = false := by simpa using h
        simp [fsErase, fsLookup, hb, ih]

/-- `stem ++ suffix` re-assembles the path name. -/
theorem splitExtL_append : ∀ (p : List Char),
    (splitExtL p).1 ++ (splitExtL p).2 = p := by
  intro p
  unfold splitExtL
  cases hdw : p.reverse.dropWhile (fun c => !(c == '.')) with
  | nil =>
    simp
  | cons c rest =>
    have hc : (!(c == '.')) = false :=
      dropWhile_head_false (p := fun c => !(c == '.')) hdw
    have hc' : c = '.' := by simpa using hc
    have hsplit : p.reverse.takeWhile (fun c => !(c == '.')) ++ (c :: rest) = p.reverse := by
      rw [← hdw]
      exact List.takeWhile_append_dropWhile _ _
    have hp : p = rest.reverse ++ [c] ++ (p.reverse.takeWhile (fun c => !(c == '.'))).reverse := by
      have := congrArg List.reverse hsplit
      simpa [List.reverse_append] using this.symm
    simp only
    conv_rhs => rw [hp, hc']
    simp

theorem outPath_ne (p : String) : outPath p ≠ p := by
  intro h
  have hd : ((splitExtL p.data).1 ++ "_trimmed".data ++ (splitExtL p.data).2) = p.data :=
    congrArg String.data h
  have hlen := congrArg List.length hd
  have hre := congrArg List.length (splitExtL_append p.data)
  have h8 : ("_trimmed".data).length = 8 := rfl
  simp only [List.length_append, h8] at hlen hre
  omega

/-- The trimmed output path is distinct from the canonical input path. -/
theorem outPath_ne' (p : String) : p ≠ outPath p := fun h => outPath_ne p h.symm

/-! ## Facts about the rate-limiter grant times -/

theorem rate_limit_grant_ge (r last t : ℤ) : last + r ≤ rate_limit_grant r last t := by
  unfold rate_limit_grant
  split
  · exact le_refl _
  · next h => omega

theorem grantTimes_chain : ∀ (r : ℤ) (ts : List ℤ) (last : ℤ),
    List.Chain' (fun a b => a + r ≤ b) (grantTimes r last ts) := by
  intro r ts
  induction ts with
  | nil => intro last; simp [grantTimes]
  | cons t rest ih =>
    intro last
    rw [grantTimes]
    rw [List.chain'_cons']
    refine ⟨?_, ih _⟩
    intro y hy
    cases rest with
    | nil => simp [grantTimes] at hy
    | cons t2 rest2 =>
      rw [grantTimes] at hy
      simp at hy
      rw [← hy]
      exact rate_limit_grant_ge r _ t2

/-! # The claims -/

/-- C1. The claim says each closed window's start equals the start time of
the first segment folded into that window. The code tests the running
start with `if not start_time:`, which treats a stored `0.0` the same as
the `None` sentinel; on `segsC1` (first segment starting at `0.0`) the
single emitted window carries start `2` — the second segment's start —
while the first folded segment starts at `0`. Closing at the last segment
and the window's end (`4`) behave as specified. -/
theorem c1_zero_start_misattributed :
    (chunkSegments segsC1).map Chunk.start = [2] ∧
    segsC1.map Segment.start = [0, 2] ∧
    (chunkSegments segsC1).map Chunk.stop = [4] ∧
    (chunkSegments segsC1).length = 1 := by decide

/-- C2 (amended). Each derived Chunk id is
`f"{channel_id}-{video_id}-{i}"` where `i` is the enumeration index of the
segment that closed the window (not the per-window ordinal, which is
stored separately as `chunk_index`); the id column written to the
relational store and the concatenation of the id batches handed to the
vector store are both byte-identical to the loop's `ids` list. -/
theorem c2_ids_consistent_across_stores (ch vid : String) (segs : List Segment) :
    (pgChunkRows ch vid segs).map ChunkRow.id = chunkIds ch vid segs ∧
    (chromaIdBatches ch vid segs).flatten = chunkIds ch vid segs ∧
    chunkIds ch vid segs =
      (chunkSegments segs).map (fun c => mkChunkId ch vid c.closeIdx) := by
  refine ⟨?_, chunksOf100_flatten _, rfl⟩
  rw [pgChunkRows, pgRowsAux_map_id]
  exact map_fst_zip_of_le _ _ (le_of_eq (by rw [chunkIds, List.length_map]))

/-- C2, counterexample to the claim as stated: on `segsC2` the first
window closes at segment index 1 and the second at index 2, so the ids
are `c-v-1, c-v-2`, not the window ordinals `c-v-0, c-v-1` that the
claim's "window ordinal index that increments once per closed window"
derivation would produce. -/
theorem c2_counterexample :
    chunkIds "c" "v" segsC2 ≠ specOrdinalIds "c" "v" segsC2 ∧
    chunkIds "c" "v" segsC2 = ["c-v-1", "c-v-2"] ∧
    specOrdinalIds "c" "v" segsC2 = ["c-v-0", "c-v-1"] := by decide

/-- C3 (amended). An item whose only fetch attempt yields a WAV file but
whose transcription step fails is still terminated as a success: the
caught transcription error is only logged, the item is appended to the
durable success archive, the failure log stays empty, and the worker
returns success. It does not prevent other items of the batch: the
batch's results are exactly the independent per-item results. -/
theorem c3_transcribe_fail_archived_as_success (vid : String) (e : DlEnv)
    (h : e.attempts 0 = AttemptOutcome.wav true false)
    (xs ys : List (String × DlEnv)) :
    (download_video vid e).retSuccess = true ∧
    (download_video vid e).archive = ["youtube " ++ vid] ∧
    (download_video vid e).failLog = [] ∧
    download_batch (xs ++ (vid, e) :: ys) =
      download_batch xs ++ download_video vid e :: download_batch ys := by
  refine ⟨?_, ?_, ?_, by simp [download_batch]⟩ <;>
    simp [download_video, dlLoop, h]

/-- C3, counterexample to the claim as stated: with transcription failing
on the (only) attempt, the item lands in the success archive and not in
the failure log, and the worker reports success. -/
theorem c3_counterexample :
    (download_video "v" envTranscribeFail).retSuccess = true ∧
    (download_video "v" envTranscribeFail).archive = ["youtube v"] ∧
    (download_video "v" envTranscribeFail).archive ≠ [] ∧
    (download_video "v" envTranscribeFail).failLog = [] := by decide

/-- C3, witness for the amended theorem at a concrete environment. -/
theorem c3_witness :
    (download_video "v" envTranscribeFail).retSuccess = true ∧
    (download_video "v" envTranscribeFail).archive = ["youtube " ++ "v"] ∧
    (download_video "v" envTranscribeFail).failLog = [] ∧
    download_batch ([] ++ ("v", envTranscribeFail) :: []) =
      download_batch [] ++ download_video "v" envTranscribeFail :: download_batch [] :=
  c3_transcribe_fail_archived_as_success "v" envTranscribeFail rfl [] []

/-- C4. When every one of the three fetch attempts fails, the worker
performs exactly 3 rate-limited fetch attempts (after the one non-retried
metadata fetch), sleeps `u₀·1` and `u₁·2` (the `uniform(1,5)` draw times
the 1-based attempt number, no sleep after the last attempt), then
appends exactly one failure record `(video_id, timestamp, last_error)`
carrying the *last* attempt's error, touches the success archive not at
all, and returns the failure result — the embedding is a total function,
so nothing propagates to the scheduler. -/
theorem c4_all_attempts_fail_single_record (vid : String) (e : DlEnv)
    (h0 : (e.attempts 0).fails = true) (h1 : (e.attempts 1).fails = true)
    (h2 : (e.attempts 2).fails = true) :
    download_video vid e =
      ⟨false, vid, [], [⟨vid, e.now, (e.attempts 2).errOf⟩], 3, 1,
        [e.u 0 * 1, e.u 1 * 2]⟩ := by
  cases ha0 : e.attempts 0 <;> cases ha1 : e.attempts 1 <;> cases ha2 : e.attempts 2 <;>
    simp_all [download_video, dlLoop, AttemptOutcome.fails, AttemptOutcome.errOf]

/-- C4, witness at a concrete all-failing environment. -/
theorem c4_witness :
    download_video "v" envAllFail =
      ⟨false, "v", [], [⟨"v", 7, some "boom"⟩], 3, 1, [2 * 1, 2 * 2]⟩ := by
  have h := c4_all_attempts_fail_single_record "v" envAllFail rfl rfl rfl
  rw [h]
  decide

/-- C5 (amended). Both upserts create no duplicate rows on re-application
(`insert_video_metadata` maps over the table, so the row count is
unchanged), `insert_transcript_chunks` is fully idempotent for chunk
lists with pairwise distinct ids (as the pipeline produces), and
`insert_video_metadata` re-applied with the same meta is the identity in
every stored field except `extracted_at`, which is refreshed to the clock
value of the latest application (so re-applying at the same instant is
the identity). -/
theorem c5_upsert_idempotence_amended :
    (∀ (t : List VideoRow) (m : VideoMeta) (n : ℤ),
      insert_video_metadata (insert_video_metadata t (some m) n) (some m) n =
        insert_video_metadata t (some m) n) ∧
    (∀ (t : List VideoRow) (m : VideoMeta) (n1 n2 : ℤ),
      insert_video_metadata (insert_video_metadata t (some m) n1) (some m) n2 =
        (insert_video_metadata t (some m) n1).map
          (fun r => if r.id == m.id then { r with extracted_at := n2 } else r) ∧
      (insert_video_metadata (insert_video_metadata t (some m) n1) (some m) n2).length =
        (insert_video_metadata t (some m) n1).length) ∧
    (∀ (t cs : List ChunkRow), (cs.map ChunkRow.id).Nodup →
      insert_transcript_chunks (insert_transcript_chunks t cs) cs =
        insert_transcript_chunks t cs) :=
  ⟨insert_video_metadata_idem,
   fun t m n1 n2 =>
     ⟨insert_video_metadata_reapply t m n1 n2,
      by rw [insert_video_metadata_reapply, List.length_map]⟩,
   fun t cs h => insert_transcript_chunks_idem cs t h⟩

/-- C5, counterexample to the claim as stated: applying
`insert_video_metadata` twice with the identical meta, at clock values 0
and then 1, leaves different stored rows — `extracted_at` drifts from 0
to 1 (`datetime.utcnow()` is re-evaluated inside the upsert). -/
theorem c5_counterexample :
    insert_video_metadata (insert_video_metadata [] (some m0) 0) (some m0) 1 ≠
      insert_video_metadata [] (some m0) 0 ∧
    (insert_video_metadata (insert_video_metadata [] (some m0) 0) (some m0) 1).map
      VideoRow.extracted_at = [1] ∧
    (insert_video_metadata [] (some m0) 0).map VideoRow.extracted_at = [0] := by decide

/-- C5, witness for the amended theorem at concrete inputs. -/
theorem c5_witness :
    insert_video_metadata (insert_video_metadata [] (some m0) 5) (some m0) 5 =
      insert_video_metadata [] (some m0) 5 ∧
    insert_transcript_chunks (insert_transcript_chunks [] cs0) cs0 =
      insert_transcript_chunks [] cs0 :=
  ⟨c5_upsert_idempotence_amended.1 [] m0 5,
   c5_upsert_idempotence_amended.2.2 [] cs0 (by decide)⟩

/-- C6. `trim_silence` returns the very path it was given, and is atomic
at that canonical path: when ffmpeg succeeds the canonical path holds the
fully normalised content and the `_trimmed` working path is gone (the
original is deleted and the trimmed file renamed over it); on a missing
input, a non-zero ffmpeg exit (even one leaving a partial file at the
`_trimmed` path) or a missing output, an error is raised and the content
at the canonical path is exactly what it was before the call. -/
theorem c6_trim_silence_atomic (fs : FS) (input : String) (ff : FfmpegRun) :
    (∀ p, (trim_silence fs input ff).2 = Except.ok p → p = input) ∧
    (∀ out, ff = FfmpegRun.ok out → ¬ (fsLookup fs input).isNone →
      (trim_silence fs input ff).2 = Except.ok input ∧
      fsLookup (trim_silence fs input ff).1 input = some out ∧
      fsLookup (trim_silence fs input ff).1 (outPath input) = none) ∧
    (∀ e, (trim_silence fs input ff).2 = Except.error e →
      fsLookup (trim_silence fs input ff).1 input = fsLookup fs input) := by
  by_cases hin : (fsLookup fs input).isNone
  · refine ⟨?_, ?_, ?_⟩
    · intro p hp
      simp [trim_silence, hin] at hp
    · intro out hout hcon
      exact absurd hin hcon
    · intro e _
      simp [trim_silence, hin]
  · cases ff with
    | ok out =>
      have heq : trim_silence fs input (FfmpegRun.ok out)
          = (fsWrite (fsErase (fsErase (fsWrite fs (outPath input) out) input)
              (outPath input)) input out,
             Except.ok input) := by
        simp [trim_silence, hin]
      refine ⟨?_, ?_, ?_⟩
      · intro p hp
        rw [heq] at hp
        simpa using hp.symm
      · intro o ho _
        have ho' : out = o := by
          injection ho
        refine ⟨by rw [heq], ?_, ?_⟩
        · rw [heq, ← ho']
          exact fsLookup_write_self _ _ _
        · rw [heq]
          show fsLookup (fsWrite _ input out) (outPath input) = none
          rw [fsLookup_write_ne _ _ (outPath_ne input)]
          exact fsLookup_erase_self _ _
      · intro e he
        rw [heq] at he
        simp at he
    | okNoOutput =>
      have heq : trim_silence fs input FfmpegRun.okNoOutput
          = (fs, Except.error TrimErr.outputMissing) := by
        simp [trim_silence, hin]
      refine ⟨?_, ?_, ?_⟩
      · intro p hp
        rw [heq] at hp
        simp at hp
      · intro o ho _
        simp at ho
      · intro e _
        rw [heq]
    | failed leftover =>
      cases leftover with
      | none =>
        have heq : trim_silence fs input (FfmpegRun.failed none)
            = (fs, Except.error TrimErr.toolError) := by
          simp [trim_silence, hin]
        refine ⟨?_, ?_, ?_⟩
        · intro p hp
          rw [heq] at hp
          simp at hp
        · intro o ho _
          simp at ho
        · intro e _
          rw [heq]
      | some leftoverContent =>
        have heq : trim_silence fs input (FfmpegRun.failed (some leftoverContent))
            = (fsWrite fs (outPath input) leftoverContent,
               Except.error TrimErr.toolError) := by
          simp [trim_silence, hin]
        refine ⟨?_, ?_, ?_⟩
        · intro p hp
          rw [heq] at hp
          simp at hp
        · intro o ho _
          simp at ho
        · intro e _
          rw [heq]
          exact fsLookup_write_ne _ _ (outPath_ne' input)
    
/-- C6, witness: a failed ffmpeg run leaves the original content at the
canonical path; a successful run returns the canonical path. -/
theorem c6_witness :
    fsLookup (trim_silence [("a.wav", "orig")] "a.wav" (FfmpegRun.failed none)).1 "a.wav"
        = some "orig" ∧
    (trim_silence [("a.wav", "orig")] "a.wav" (FfmpegRun.ok "norm")).2 =
        Except.ok "a.wav" := by
  constructor
  · have h := (c6_trim_silence_atomic [("a.wav", "orig")] "a.wav"
      (FfmpegRun.failed none)).2.2 TrimErr.toolError rfl
    rw [h]
    decide
  · exact ((c6_trim_silence_atomic [("a.wav", "orig")] "a.wav"
      (FfmpegRun.ok "norm")).2.1 "norm" rfl (by decide)).1

/-- C7 (amended). The 24-hour freshness skip lives in the embedding stage:
`process_channel` skips a video whose stored `extracted_at` is less than
24 hours before now, performing no store writes at all for it. -/
theorem c7_embedder_freshness_skip (ch vid : String) (now : ℤ) (env : VideoEnv)
    (h : videoFresh env.lastProcessed now = true) :
    process_video ch vid now env = (VideoStepOut.skippedFresh, ⟨[], [], []⟩) := by
  simp [process_video, h]

/-- C7, witness for the amended theorem. -/
theorem c7_witness :
    process_video "c" "v" 24 envFresh = (VideoStepOut.skippedFresh, ⟨[], [], []⟩) :=
  c7_embedder_freshness_skip "c" "v" 24 envFresh (by decide)

/-- C7, counterexample to the claim as stated: for an item whose stored
extraction timestamp is one hour old (fresh by the 24-hour rule), the
per-item download step still performs its metadata fetch and all three
audio-fetch attempts — `DownloadManager.download_video` contains no
freshness check and has no skipped terminal state. -/
theorem c7_counterexample :
    videoFresh (some 23) 24 = true ∧
    (download_step (some 23) 24 "v" envAllFail).fetchCalls = 3 ∧
    (download_step (some 23) 24 "v" envAllFail).metaCalls = 1 ∧
    (download_step (some 23) 24 "v" envAllFail).retSuccess = false := by decide

/-- C8 (amended). For sequential (non-interleaved) calls the rate limiter
does enforce the interval: each grant time produced by `rate_limit_wait`
is at least `rate_limit` after the previous grant, whatever the call
entry times. -/
theorem c8_sequential_grant_spacing (r last : ℤ) (ts : List ℤ) :
    List.Chain' (fun a b => a + r ≤ b) (grantTimes r last ts) :=
  grantTimes_chain r ts last

/-- C8, counterexample to the claim as stated: `rate_limit_wait` takes no
lock, so two workers can both read `last_request_time = 4` at time 5 with
`rate_limit = 2`, both sleep until 6, and both are granted at 6 — two
consecutive grants zero seconds apart, violating the claimed minimum
spacing. -/
theorem c8_counterexample :
    (raceRun 2 raceS0 raceSched).grants = [6, 6] ∧
    ¬ List.Chain' (fun a b => a + 2 ≤ b) ((raceRun 2 raceS0 raceSched).grants) := by
  refine ⟨by decide, ?_⟩
  intro hch
  rw [show (raceRun 2 raceS0 raceSched).grants = [6, 6] from by decide] at hch
  rw [List.chain'_pair] at hch
  omega

/-- C9 (amended; the claim's equality holds under the proviso that every
segment's stripped text is nonempty — an empty strip still contributes a
separating space to the buffer and breaks it). The space-join of all
emitted chunk texts equals the space-join of all stripped segment texts:
no segment text is dropped or duplicated across chunks. -/
theorem c9_partition (segs : List Segment)
    (h : ∀ s ∈ segs, strip s.text ≠ []) :
    joinSp ((chunkSegments segs).map Chunk.text) =
      joinSp (segs.map (fun s => strip s.text)) :=
  chunkSegments_partition segs h

/-- C9, witness at a concrete two-segment transcript. -/
theorem c9_witness :
    joinSp ((chunkSegments segsW).map Chunk.text) =
      joinSp (segsW.map (fun s => strip s.text)) :=
  c9_partition segsW (by decide)

/-- C9, counterexample to the claim as stated: a segment stripping to the
empty text still appends a separator space, so the joined chunk texts
(`"a"`) differ from the joined stripped segment texts (`" a"`). -/
theorem c9_counterexample :
    joinSp ((chunkSegments segsC9).map Chunk.text) ≠
      joinSp (segsC9.map (fun s => strip s.text)) := by decide

/-- C10. In single-item mode, once the initial info fetch succeeds, a
substring match of the requested id against any line of the success
archive makes `download_single_video` return success with zero
`download_video` invocations — whatever the stored extraction timestamp
(the environment carries one and the function never reads it; no 24-hour
window applies). -/
theorem c10_archive_substring_skip (vid : String) (e : SingleEnv)
    (hinfo : e.infoOk = true)
    (hmem : e.archiveLines.any (fun line => containsSub line.data vid.data) = true) :
    download_single_video vid e = (true, 0) := by
  simp [download_single_video, hinfo, hmem]

/-- C10, witness: the id `"abc"` occurs strictly inside the archive line
`"youtube zzabczz"`, and the skip fires. -/
theorem c10_witness : download_single_video "abc" envSingle = (true, 0) :=
  c10_archive_substring_skip "abc" envSingle rfl (by decide)
